import Mathlib

/-!
Verification of `src/extensions/ipynb/src/notebookImagePaste.ts`.

This file is a shallow embedding of the notebook image paste/drop utility:
the base64 encoder `encodeBase64`, the attachment namer `buildAttachment`
(with its filename collision loop), and the orchestration `buildImageMarkdown`.
Bytes of a `Uint8Array` are modelled as `Nat` (the source guarantees values
below 256; theorems that depend on that bound carry it as a hypothesis).
JavaScript objects holding attachments are modelled as association lists in
property insertion order, so `Object.entries(...)[0]` is the head of the list.
-/

/-! ### Base64 encoder (source lines 57-93) -/

/-- Characters of the string literal `base64Alphabet` of the source. -/
def base64Alphabet : List Char :=
  "ABCDEFGHIJKLMNOPQRSTUVWXYZabcdefghijklmnopqrstuvwxyz0123456789+/".data

/-- Characters of the string literal `base64UrlSafeAlphabet` of the source. -/
def base64UrlSafeAlphabet : List Char :=
  "ABCDEFGHIJKLMNOPQRSTUVWXYZabcdefghijklmnopqrstuvwxyz0123456789-_".data

/-- Loop body of `encodeBase64`: the `for` loop consumes the bytes three at a
time, and the two `remainder` branches handle the trailing one or two bytes,
appending `==` or `=` when `padded` is set.  Indexing the alphabet string is
modelled with `List.getD`; every index produced from bytes below 256 is below
64, so the default `' '` is never returned on the source's domain. -/
def encodeChunks (dictionary : List Char) (padded : Bool) : List Nat → List Char
  | a :: b :: c :: rest =>
    dictionary.getD (a >>> 2) ' ' ::
    dictionary.getD ((a <<< 4 ||| b >>> 4) &&& 63) ' ' ::
    dictionary.getD ((b <<< 2 ||| c >>> 6) &&& 63) ' ' ::
    dictionary.getD (c &&& 63) ' ' ::
    encodeChunks dictionary padded rest
  | [a] =>
    dictionary.getD (a >>> 2) ' ' ::
    dictionary.getD ((a <<< 4) &&& 63) ' ' ::
    (if padded then ['=', '='] else [])
  | [a, b] =>
    dictionary.getD (a >>> 2) ' ' ::
    dictionary.getD ((a <<< 4 ||| b >>> 4) &&& 63) ' ' ::
    dictionary.getD ((b <<< 2) &&& 63) ' ' ::
    (if padded then ['='] else [])
  | [] => []

/-- Embedding of `encodeBase64(buffer, padded = true, urlSafe = false)`.
The source's default arguments are written out explicitly at call sites. -/
def encodeBase64 (buffer : List Nat) (padded : Bool) (urlSafe : Bool) : String :=
  let dictionary := if urlSafe then base64UrlSafeAlphabet else base64Alphabet
  String.mk (encodeChunks dictionary padded buffer)

/-! ### Reference base64 decoder

The decoder is not part of the source.  Claim C2 stipulates a companion
standard-alphabet decoder with the same alphabet and padding rules; the
following definitions follow the spec's words (spec section 8, round-trip
property) and are used only on that claim. -/

/-- Value of a character of the standard base64 alphabet, `none` outside it. -/
def decodeBase64Char (c : Char) : Option Nat :=
  if c ∈ base64Alphabet then some (base64Alphabet.indexOf c) else none

/-- Decode groups of four base64 characters into three bytes; a trailing group
of two or three characters yields one or two bytes.  A lone trailing character
is malformed. -/
def decodeBase64Chunks : List Char → Option (List Nat)
  | w :: x :: y :: z :: rest => do
    let vw ← decodeBase64Char w
    let vx ← decodeBase64Char x
    let vy ← decodeBase64Char y
    let vz ← decodeBase64Char z
    let tail ← decodeBase64Chunks rest
    pure ((vw * 4 + vx / 16) :: ((vx % 16) * 16 + vy / 4) :: ((vy % 4) * 64 + vz) :: tail)
  | [w, x, y] => do
    let vw ← decodeBase64Char w
    let vx ← decodeBase64Char x
    let vy ← decodeBase64Char y
    pure [vw * 4 + vx / 16, (vx % 16) * 16 + vy / 4]
  | [w, x] => do
    let vw ← decodeBase64Char w
    let vx ← decodeBase64Char x
    pure [vw * 4 + vx / 16]
  | [_] => none
  | [] => some []

/-- Reference decoder for padded standard-alphabet base64: strip the `=`
padding characters, then decode six-bit groups. -/
def decodeBase64Standard (s : String) : Option (List Nat) :=
  decodeBase64Chunks (s.data.filter (fun c => c ≠ '='))

example : encodeBase64 [0] true false = "AA==" := by decide
example : encodeBase64 [0] false false = "AA" := by decide
example : encodeBase64 [0, 0] true false = "AAA=" := by decide
example : encodeBase64 [0, 0, 0] true false = "AAAA" := by decide
example : decodeBase64Standard "AA==" = some [0] := by decide
example : decodeBase64Standard (encodeBase64 [77, 97, 110] true false) = some [77, 97, 110] := by
  decide

/-! ### Attachment data model (source lines 113-148)

A cell's metadata has an optional `custom` object which has an optional
`attachments` object mapping filenames to attachment records; a record maps
MIME types to base64 payload strings.  JavaScript objects are modelled as
association lists in property insertion order. -/

/-- Record stored under one attachment filename: MIME type to base64 payload,
in insertion order (`Object.entries` order). -/
abbrev AttachmentRecord := List (String × String)

/-- The `custom.attachments` object: filename to record, keys unique in the
source (JavaScript object), insertion order kept. -/
abbrev AttachmentStore := List (String × AttachmentRecord)

/-- The `custom` object of a cell's metadata; the source only ever reads and
writes its `attachments` property. -/
structure CustomMetadata where
  attachments : Option AttachmentStore
deriving DecidableEq

/-- A cell's metadata; the source only ever reads and writes its `custom`
property.  `none` models an absent (falsy) property. -/
structure CellMetadata where
  custom : Option CustomMetadata
deriving DecidableEq

/-- The slice of `vscode.NotebookCell` that `buildAttachment` reads. -/
structure NotebookCell where
  metadata : CellMetadata
deriving DecidableEq

/-- JavaScript property assignment `obj[k] = v` on an object modelled as an
association list: replace the value in place if the key exists, otherwise
append the new key at the end. -/
def setKey : AttachmentStore → String → AttachmentRecord → AttachmentStore
  | [], k, v => [(k, v)]
  | (k', v') :: rest, k, v =>
    if k' = k then (k, v) :: rest else (k', v') :: setKey rest k v

/-- Candidate filename built by the collision loop:
`filename.concat(`-${appendValue}`) + filetype`. -/
def candidateName (filename filetype : String) (appendValue : Nat) : String :=
  filename ++ "-" ++ toString appendValue ++ filetype

/-- One iteration of the `for` loop of `buildAttachment` (source lines
131-141), as a step on the state `(appendValue, tempFilename)`:
`Sum.inl settled` models leaving the loop (condition false, or `break` on a
matching payload), `Sum.inr` is the state after the body and the `appendValue++`
update ran. -/
def loopStep (startingAttachments : AttachmentStore) (b64 filename filetype : String)
    (appendValue : Nat) (tempFilename : String) : String ⊕ (Nat × String) :=
  match startingAttachments.lookup tempFilename with
  | none => Sum.inl tempFilename
  | some record =>
    match record with
    | [] => Sum.inr (appendValue + 1, tempFilename)
    | (_, attachmentb64) :: _ =>
      if attachmentb64 = b64 then Sum.inl tempFilename
      else Sum.inr (appendValue + 1, candidateName filename filetype appendValue)

/-- The collision loop, iterated with explicit fuel; `none` models a run that
does not leave the loop within `fuel` iterations (the source loop can run
forever when it keeps meeting a record with zero MIME entries). -/
def collisionLoop (startingAttachments : AttachmentStore) (b64 filename filetype : String) :
    Nat → Nat → String → Option String
  | 0, _, _ => none
  | fuel + 1, appendValue, tempFilename =>
    match loopStep startingAttachments b64 filename filetype appendValue tempFilename with
    | Sum.inl settled => some settled
    | Sum.inr (a, t) => collisionLoop startingAttachments b64 filename filetype fuel a t

/-- Return value of `buildAttachment`. -/
structure AttachmentResult where
  metadata : CellMetadata
  filename : String
deriving DecidableEq

/-- Embedding of `buildAttachment(b64, cell, filename, filetype,
startingAttachments)`.  The three branches follow the truthiness tests on
`outputMetadata.custom` and `outputMetadata.custom.attachments`.  In the loop
branch the fuel `starting.length + 2` is a sound bound: a run of the source
loop that terminates at all examines pairwise distinct candidate names, all
but the last being keys of the store, so it exits within `length + 1`
iterations; `none` therefore models precisely the runs that never exit (and,
when `startingAttachments` is `undefined` while the cell has an attachments
object, the `TypeError` the `in` operator would throw; the only caller always
passes the cell's own attachments object). -/
def buildAttachment (b64 : String) (cell : NotebookCell) (filename filetype : String)
    (startingAttachments : Option AttachmentStore) : Option AttachmentResult :=
  let tempFilename := filename ++ filetype
  match cell.metadata.custom with
  | none =>
    some ⟨⟨some ⟨some [(tempFilename, [("image/png", b64)])]⟩⟩, tempFilename⟩
  | some customObj =>
    match customObj.attachments with
    | none =>
      some ⟨⟨some ⟨some [(tempFilename, [("image/png", b64)])]⟩⟩, tempFilename⟩
    | some attachments =>
      match startingAttachments with
      | none => none
      | some starting =>
        match collisionLoop starting b64 filename filetype (starting.length + 2) 2
            tempFilename with
        | none => none
        | some settled =>
          some ⟨⟨some ⟨some (setKey attachments settled [("image/png", b64)])⟩⟩, settled⟩

example :
    buildAttachment "X" ⟨⟨some ⟨some [("img.png", [("image/png", "X")])]⟩⟩⟩ "img" ".png"
      (some [("img.png", [("image/png", "X")])]) =
    some ⟨⟨some ⟨some [("img.png", [("image/png", "X")])]⟩⟩, "img.png"⟩ := by decide
example :
    buildAttachment "Y" ⟨⟨some ⟨some [("img.png", [("image/png", "X")])]⟩⟩⟩ "img" ".png"
      (some [("img.png", [("image/png", "X")])]) =
    some ⟨⟨some ⟨some [("img.png", [("image/png", "X")]), ("img-2.png", [("image/png", "Y")])]⟩⟩,
      "img-2.png"⟩ := by decide

/-! ### Orchestration `buildImageMarkdown` (source lines 156-206)

The platform inputs (the data transfer item and the owning cell found by
`getCellFromCellDocument`) are passed as already-resolved values; the guards
of the source are modelled in order.  JavaScript's `String.prototype.slice`
and `lastIndexOf` are embedded with their negative-index semantics. -/

/-- The file of a `vscode.DataTransferItem`: resolved bytes (`none` when
`data()` does not resolve) and the suggested name. -/
structure TransferFile where
  data : Option (List Nat)
  name : String
deriving DecidableEq

/-- A `vscode.DataTransferItem`; `asFile()` may return `undefined`. -/
structure DataTransferItem where
  asFile : Option TransferFile
deriving DecidableEq

/-- JavaScript `s.lastIndexOf(c)`: index of the last occurrence, `-1` when
absent. -/
def lastIndexOf (s : String) (c : Char) : Int :=
  match s.data.reverse.findIdx? (fun x => x = c) with
  | some j => (s.data.length : Int) - 1 - j
  | none => -1

/-- JavaScript `s.slice(start, stop)`: negative indices count from the end,
indices are clamped to `[0, length]`, and an empty string results when the
normalised start is not below the normalised stop. -/
def jsSlice (s : String) (start stop : Int) : String :=
  let len : Int := s.data.length
  let a := if start < 0 then max (len + start) 0 else min start len
  let b := if stop < 0 then max (len + stop) 0 else min stop len
  String.mk ((s.data.drop a.toNat).take (b - a).toNat)

/-- Embedding of `buildImageMarkdown(dataTransfer, document)`: the result is
the paste snippet text paired with the updated cell metadata, `none` when the
operation aborts (and, through `buildAttachment`, when the collision loop
never exits).  `dataTransfer.get('image/png')` and `getCellFromCellDocument`
are the two platform lookups, passed as `dataItem` and `currentCell`. -/
def buildImageMarkdown (dataItem : Option DataTransferItem)
    (currentCell : Option NotebookCell) : Option (String × CellMetadata) :=
  match dataItem with
  | none => none
  | some item =>
    match item.asFile.bind TransferFile.data with
    | none => none
    | some fileDataAsUint8 =>
      match item.asFile.map TransferFile.name with
      | none => none
      | some givenFilename =>
        if givenFilename = "" then none
        else
          let separatorIndex := lastIndexOf givenFilename '.'
          let filename := jsSlice givenFilename 0 separatorIndex
          let filetype := jsSlice givenFilename separatorIndex givenFilename.data.length
          if filename = "" ∨ filetype = "" then none
          else
            match currentCell with
            | none => none
            | some cell =>
              let b64string := encodeBase64 fileDataAsUint8 true false
              let startingAttachments := cell.metadata.custom.bind CustomMetadata.attachments
              match buildAttachment b64string cell filename filetype startingAttachments with
              | none => none
              | some newAttachment =>
                some ("![" ++ givenFilename ++ "](attachment:" ++ newAttachment.filename ++ ")",
                  newAttachment.metadata)

example :
    buildImageMarkdown (some ⟨some ⟨some [0], "abc"⟩⟩) (some ⟨⟨none⟩⟩) =
    some ("![abc](attachment:abc)", ⟨some ⟨some [("abc", [("image/png", "AA==")])]⟩⟩) := by
  decide
example :
    buildImageMarkdown (some ⟨some ⟨some [0], "a"⟩⟩) (some ⟨⟨none⟩⟩) = none := by decide
example :
    buildImageMarkdown (some ⟨some ⟨some [0], "img.png"⟩⟩) (some ⟨⟨none⟩⟩) =
    some ("![img.png](attachment:img.png)", ⟨some ⟨some [("img.png", [("image/png", "AA==")])]⟩⟩) := by
  decide

/-! ### Association list lemmas -/

/-- A successful `List.lookup` exhibits a member of the list. -/
theorem lookup_mem {α β : Type} [BEq α] [LawfulBEq α] {l : List (α × β)} {k : α} {v : β}
    (h : l.lookup k = some v) : (k, v) ∈ l := by
  induction l with
  | nil => simp [List.lookup] at h
  | cons p t ih =>
    obtain ⟨a, b⟩ := p
    rw [List.lookup] at h
    by_cases hk : k = a
    · subst hk
      simp at h
      simp [h]
    · have hb : (k == a) = false := by simp [hk]
      rw [hb] at h
      exact List.mem_cons_of_mem _ (ih h)

/-- Looking up the key just written by `setKey` yields the new record. -/
theorem lookup_setKey_self (l : AttachmentStore) (k : String) (v : AttachmentRecord) :
    (setKey l k v).lookup k = some v := by
  induction l with
  | nil => simp [setKey, List.lookup]
  | cons p t ih =>
    obtain ⟨a, b⟩ := p
    rw [setKey]
    by_cases h : a = k
    · rw [if_pos h, List.lookup]
      simp
    · rw [if_neg h, List.lookup]
      have hb : (k == a) = false := by
        simp only [beq_eq_false_iff_ne, ne_eq]
        exact fun hc => h hc.symm
      rw [hb]
      exact ih

/-- `setKey` leaves the lookup of every other key unchanged. -/
theorem lookup_setKey_ne (l : AttachmentStore) (k k' : String) (v : AttachmentRecord)
    (h : k' ≠ k) : (setKey l k v).lookup k' = l.lookup k' := by
  induction l with
  | nil =>
    have hb : (k' == k) = false := by simp [h]
    simp [setKey, List.lookup, hb]
  | cons p t ih =>
    obtain ⟨a, b⟩ := p
    rw [setKey]
    by_cases ha : a = k
    · subst ha
      have hb : (k' == a) = false := by simp [h]
      rw [if_pos rfl, List.lookup, hb, List.lookup, hb]
    · rw [if_neg ha, List.lookup, List.lookup]
      cases hk : k' == a with
      | true => rfl
      | false => exact ih

/-! ### Injectivity of decimal rendering

The collision loop builds candidate names with the template string
`` `-${appendValue}` ``, i.e. the decimal rendering of a natural number
(`Nat.repr` in this embedding).  Termination of the loop (claim C5) rests on
those candidates being pairwise distinct, hence on `Nat.repr` being injective,
proved here through a structural reference implementation of
`Nat.toDigitsCore`. -/

/-- Decimal digit characters of `n`, most significant first; structural
reference for the fuelled `Nat.toDigitsCore`. -/
def decDigits (n : Nat) : List Char :=
  if n < 10 then [Nat.digitChar n]
  else decDigits (n / 10) ++ [Nat.digitChar (n % 10)]
termination_by n
decreasing_by
  exact Nat.div_lt_self (by omega) (by omega)

theorem decDigits_lt {n : Nat} (h : n < 10) : decDigits n = [Nat.digitChar n] := by
  rw [decDigits, if_pos h]

theorem decDigits_ge {n : Nat} (h : ¬n < 10) :
    decDigits n = decDigits (n / 10) ++ [Nat.digitChar (n % 10)] := by
  rw [decDigits, if_neg h]

theorem decDigits_ne_nil (n : Nat) : decDigits n ≠ [] := by
  rw [decDigits]
  split
  · simp
  · simp

/-- `Nat.digitChar` tells apart any two digits below ten. -/
theorem digitChar_inj_fin : ∀ a b : Fin 10,
    Nat.digitChar a = Nat.digitChar b → (a : Nat) = b := by decide

theorem digitChar_inj {a b : Nat} (ha : a < 10) (hb : b < 10)
    (h : Nat.digitChar a = Nat.digitChar b) : a = b :=
  digitChar_inj_fin ⟨a, ha⟩ ⟨b, hb⟩ h

theorem decDigits_inj : ∀ m : Nat, ∀ n : Nat, decDigits m = decDigits n → m = n := by
  intro m
  induction m using Nat.strong_induction_on with
  | _ m ih =>
    intro n h
    by_cases hm : m < 10 <;> by_cases hn : n < 10
    · rw [decDigits_lt hm, decDigits_lt hn] at h
      simp at h
      exact digitChar_inj hm hn h
    · rw [decDigits_lt hm, decDigits_ge hn] at h
      have hlen := congrArg List.length h
      have hpos : 0 < (decDigits (n / 10)).length :=
        List.length_pos.mpr (decDigits_ne_nil _)
      simp only [List.length_append, List.length_cons, List.length_nil] at hlen
      omega
    · rw [decDigits_ge hm, decDigits_lt hn] at h
      have hlen := congrArg List.length h
      have hpos : 0 < (decDigits (m / 10)).length :=
        List.length_pos.mpr (decDigits_ne_nil _)
      simp only [List.length_append, List.length_cons, List.length_nil] at hlen
      omega
    · rw [decDigits_ge hm, decDigits_ge hn] at h
      obtain ⟨h1, h2⟩ := List.append_inj' h (by simp)
      have hdiv : m / 10 = n / 10 :=
        ih (m / 10) (Nat.div_lt_self (by omega) (by omega)) (n / 10) h1
      have hmod : m % 10 = n % 10 := by
        simp at h2
        exact digitChar_inj (Nat.mod_lt _ (by omega)) (Nat.mod_lt _ (by omega)) h2
      omega

/-- With enough fuel, `Nat.toDigitsCore` agrees with the structural
reference. -/
theorem toDigitsCore_eq_decDigits : ∀ (fuel n : Nat) (ds : List Char), n < fuel →
    Nat.toDigitsCore 10 fuel n ds = decDigits n ++ ds := by
  intro fuel
  induction fuel with
  | zero => intro n ds h; omega
  | succ fuel ih =>
    intro n ds h
    rw [Nat.toDigitsCore]
    by_cases h0 : n / 10 = 0
    · have hn : n < 10 := by omega
      rw [if_pos h0, decDigits_lt hn, Nat.mod_eq_of_lt hn]
      simp
    · have hn : ¬n < 10 := by omega
      rw [if_neg h0, ih (n / 10) _ (by omega), decDigits_ge hn]
      simp

/-- The decimal rendering of a natural number is injective. -/
theorem natRepr_injective : Function.Injective Nat.repr := by
  intro m n h
  have hdig : decDigits m ++ ([] : List Char) = decDigits n ++ [] := by
    have hd := congrArg String.data h
    simpa [Nat.repr, Nat.toDigits, List.asString,
      toDigitsCore_eq_decDigits (m + 1) m [] (by omega),
      toDigitsCore_eq_decDigits (n + 1) n [] (by omega)] using hd
  simp at hdig
  exact decDigits_inj m n hdig

/-! ### Candidate names of the collision loop -/

/-- Two strings with the same character data are equal. -/
theorem string_data_inj {s t : String} (h : s.data = t.data) : s = t := by
  cases s
  cases t
  exact congrArg String.mk h

/-- Distinct `appendValue`s give distinct candidate names. -/
theorem candidateName_injective (fn ft : String) :
    Function.Injective (candidateName fn ft) := by
  intro i j h
  have hd := congrArg String.data h
  simp only [candidateName, String.data_append, List.append_assoc] at hd
  have h1 := List.append_cancel_left hd
  have h2 := List.append_cancel_left h1
  have h3 := List.append_cancel_right h2
  exact natRepr_injective (string_data_inj h3)

/-- The unsuffixed first candidate differs from every suffixed one. -/
theorem append_ne_candidateName (fn ft : String) (k : Nat) :
    fn ++ ft ≠ candidateName fn ft k := by
  intro h
  have hd : (fn ++ ft).data.length = (candidateName fn ft k).data.length := by rw [h]
  rw [candidateName] at hd
  simp only [String.data_append, List.length_append] at hd
  have hdash : (['-'] : List Char).length = 1 := rfl
  omega

/-- Sequence of candidate names the loop goes through from state
`(appendValue, tempFilename)`: the current candidate, then the suffixed names
with increasing counter. -/
def candSeq (filename filetype tempFilename : String) (appendValue : Nat) : Nat → String
  | 0 => tempFilename
  | i + 1 => candidateName filename filetype (appendValue + i)

theorem candSeq_shift (fn ft temp : String) (appendValue j : Nat) :
    candSeq fn ft (candidateName fn ft appendValue) (appendValue + 1) j
      = candSeq fn ft temp appendValue (j + 1) := by
  cases j with
  | zero => simp [candSeq]
  | succ j0 =>
    show candidateName fn ft (appendValue + 1 + j0) = candidateName fn ft (appendValue + (j0 + 1))
    have harg : appendValue + 1 + j0 = appendValue + (j0 + 1) := by omega
    rw [harg]

/-- Starting from the first candidate `filename + filetype`, all candidates
are pairwise distinct. -/
theorem candSeq_injective (fn ft : String) (appendValue : Nat) :
    Function.Injective (candSeq fn ft (fn ++ ft) appendValue) := by
  intro i j h
  match i, j with
  | 0, 0 => rfl
  | 0, j + 1 => exact absurd h (append_ne_candidateName fn ft _)
  | i + 1, 0 => exact absurd h.symm (append_ne_candidateName fn ft _)
  | i + 1, j + 1 =>
    have := candidateName_injective fn ft h
    omega

/-! ### Collision loop lemmas -/

/-- If some candidate reachable within the fuel is not a key of the store, and
every stored record has at least one MIME entry, the loop leaves with a
settled name. -/
theorem collisionLoop_isSome (store : AttachmentStore) (b64 fn ft : String)
    (hrec : ∀ p ∈ store, p.2 ≠ []) :
    ∀ (fuel appendValue : Nat) (temp : String),
      (∃ i, i < fuel ∧ store.lookup (candSeq fn ft temp appendValue i) = none) →
      ∃ s, collisionLoop store b64 fn ft fuel appendValue temp = some s := by
  intro fuel
  induction fuel with
  | zero =>
    rintro appendValue temp ⟨i, hi, _⟩
    omega
  | succ fuel ih =>
    rintro appendValue temp ⟨i, hi, hfree⟩
    rw [collisionLoop]
    cases hl : store.lookup temp with
    | none => exact ⟨temp, by simp [loopStep, hl]⟩
    | some record =>
      cases record with
      | nil => exact absurd rfl (hrec (temp, []) (lookup_mem hl))
      | cons e rest =>
        obtain ⟨mime, pay⟩ := e
        by_cases hpay : pay = b64
        · exact ⟨temp, by simp [loopStep, hl, hpay]⟩
        · have hstep : loopStep store b64 fn ft appendValue temp
              = Sum.inr (appendValue + 1, candidateName fn ft appendValue) := by
            simp [loopStep, hl, hpay]
          rw [hstep]
          apply ih
          cases i with
          | zero =>
            rw [show candSeq fn ft temp appendValue 0 = temp from rfl] at hfree
            rw [hl] at hfree
            cases hfree
          | succ j =>
            refine ⟨j, by omega, ?_⟩
            rw [candSeq_shift fn ft temp appendValue j]
            exact hfree

/-- Pigeonhole: among the first `length + 2` candidates, one is not a key of
the store. -/
theorem exists_free_candidate (store : AttachmentStore) (fn ft : String) :
    ∃ i, i < store.length + 2 ∧ store.lookup (candSeq fn ft (fn ++ ft) 2 i) = none := by
  by_contra hcon
  push_neg at hcon
  have hsub : (List.range (store.length + 2)).map (candSeq fn ft (fn ++ ft) 2)
      ⊆ store.map Prod.fst := by
    intro s hs
    rw [List.mem_map] at hs
    obtain ⟨i, hi, rfl⟩ := hs
    rw [List.mem_range] at hi
    cases hl : store.lookup (candSeq fn ft (fn ++ ft) 2 i) with
    | none => exact absurd hl (hcon i hi)
    | some v => exact List.mem_map.mpr ⟨_, lookup_mem hl, rfl⟩
  have hnodup : ((List.range (store.length + 2)).map (candSeq fn ft (fn ++ ft) 2)).Nodup :=
    (List.nodup_range _).map (candSeq_injective fn ft 2)
  have hlen := (hnodup.subperm hsub).length_le
  simp only [List.length_map, List.length_range] at hlen
  omega

/-- Any name the collision loop settles on is either no key of the store or a
key whose record's first entry carries exactly the new payload. -/
theorem collisionLoop_post (store : AttachmentStore) (b64 fn ft : String) :
    ∀ (fuel appendValue : Nat) (temp s : String),
      collisionLoop store b64 fn ft fuel appendValue temp = some s →
      store.lookup s = none ∨ ∃ mime rest, store.lookup s = some ((mime, b64) :: rest) := by
  intro fuel
  induction fuel with
  | zero =>
    intro appendValue temp s h
    cases h
  | succ fuel ih =>
    intro appendValue temp s h
    rw [collisionLoop] at h
    cases hl : store.lookup temp with
    | none =>
      rw [show loopStep store b64 fn ft appendValue temp = Sum.inl temp from by
        simp [loopStep, hl]] at h
      cases h
      exact Or.inl hl
    | some record =>
      cases record with
      | nil =>
        rw [show loopStep store b64 fn ft appendValue temp
            = Sum.inr (appendValue + 1, temp) from by simp [loopStep, hl]] at h
        exact ih _ _ _ h
      | cons e rest =>
        obtain ⟨mime, pay⟩ := e
        by_cases hpay : pay = b64
        · rw [show loopStep store b64 fn ft appendValue temp = Sum.inl temp from by
            simp [loopStep, hl, hpay]] at h
          cases h
          rw [hpay] at hl
          exact Or.inr ⟨mime, rest, hl⟩
        · rw [show loopStep store b64 fn ft appendValue temp
              = Sum.inr (appendValue + 1, candidateName fn ft appendValue) from by
            simp [loopStep, hl, hpay]] at h
          exact ih _ _ _ h

/-! ### Bit arithmetic of the encoder -/

theorem and_63 (x : Nat) : x &&& 63 = x % 64 := by
  have h := Nat.and_pow_two_sub_one_eq_mod x 6
  norm_num at h
  exact h

theorem shiftRight2 (a : Nat) : a >>> 2 = a / 4 :=
  Nat.shiftRight_eq_div_pow a 2

/-- Index fed to the dictionary for the second character of a group. -/
theorem idx2_eq (a b : Nat) (hb : b < 256) :
    (a <<< 4 ||| b >>> 4) &&& 63 = a % 4 * 16 + b / 16 := by
  have h1 : a <<< 4 = 16 * a := by
    rw [Nat.shiftLeft_eq]
    ring
  have h2 : b >>> 4 = b / 16 := Nat.shiftRight_eq_div_pow b 4
  have h3 : b / 16 < 2 ^ 4 := by omega
  have h4 : 16 * a + b / 16 = 16 * a ||| b / 16 := by
    have h5 := Nat.mul_add_lt_is_or h3 a
    norm_num at h5
    exact h5
  rw [h1, h2, ← h4, and_63]
  omega

/-- Index fed to the dictionary for the third character of a group. -/
theorem idx3_eq (b c : Nat) (hc : c < 256) :
    (b <<< 2 ||| c >>> 6) &&& 63 = b % 16 * 4 + c / 64 := by
  have h1 : b <<< 2 = 4 * b := by
    rw [Nat.shiftLeft_eq]
    ring
  have h2 : c >>> 6 = c / 64 := Nat.shiftRight_eq_div_pow c 6
  have h3 : c / 64 < 2 ^ 2 := by omega
  have h4 : 4 * b + c / 64 = 4 * b ||| c / 64 := by
    have h5 := Nat.mul_add_lt_is_or h3 b
    norm_num at h5
    exact h5
  rw [h1, h2, ← h4, and_63]
  omega

/-- Second character index in the one-trailing-byte branch. -/
theorem idx2s_eq (a : Nat) : (a <<< 4) &&& 63 = a % 4 * 16 := by
  have h1 : a <<< 4 = 16 * a := by
    rw [Nat.shiftLeft_eq]
    ring
  rw [h1, and_63]
  omega

/-- Third character index in the two-trailing-bytes branch. -/
theorem idx3s_eq (b : Nat) : (b <<< 2) &&& 63 = b % 16 * 4 := by
  have h1 : b <<< 2 = 4 * b := by
    rw [Nat.shiftLeft_eq]
    ring
  rw [h1, and_63]
  omega

/-! ### Alphabet facts -/

theorem base64Alphabet_length : base64Alphabet.length = 64 := by decide

theorem decodeChar_std_fin :
    ∀ i : Fin 64, decodeBase64Char (base64Alphabet.getD (i : Nat) ' ') = some (i : Nat) := by
  decide

/-- Decoding any dictionary character recovers its six-bit value (stated in
the `getElem?` normal form that `simp` produces). -/
theorem decodeChar_std {i : Nat} (h : i < 64) :
    decodeBase64Char (base64Alphabet[i]?.getD ' ') = some i := by
  rw [← List.getD_eq_getElem?_getD]
  exact decodeChar_std_fin ⟨i, h⟩

/-- No character the standard dictionary can produce is the padding `=`. -/
theorem std_getD_ne_pad (i : Nat) : base64Alphabet[i]?.getD ' ' ≠ '=' := by
  rw [← List.getD_eq_getElem?_getD]
  by_cases h : i < 64
  · exact (show ∀ j : Fin 64, base64Alphabet.getD (j : Nat) ' ' ≠ '=' by decide) ⟨i, h⟩
  · rw [List.getD_eq_default]
    · decide
    · rw [base64Alphabet_length]
      omega

/-- Filtering away `=` turns the padded encoding into the unpadded one. -/
theorem filter_encode_padded : ∀ bytes : List Nat,
    (encodeChunks base64Alphabet true bytes).filter (fun c => c ≠ '=')
      = encodeChunks base64Alphabet false bytes
  | [] => rfl
  | [a] => by
    simp [encodeChunks, List.filter_cons, std_getD_ne_pad]
  | [a, b] => by
    simp [encodeChunks, List.filter_cons, std_getD_ne_pad]
  | a :: b :: c :: rest => by
    have ih := filter_encode_padded rest
    simp [encodeChunks, List.filter_cons, std_getD_ne_pad]
    simpa using ih

/-- Decoding the unpadded encoding of bytes below 256 recovers the bytes. -/
theorem decode_encodeChunks : ∀ bytes : List Nat, (∀ x ∈ bytes, x < 256) →
    decodeBase64Chunks (encodeChunks base64Alphabet false bytes) = some bytes
  | [], _ => rfl
  | [a], h => by
    have ha : a < 256 := h a (by simp)
    have h1 := shiftRight2 a
    have h2 := idx2s_eq a
    have d1 : decodeBase64Char (base64Alphabet[a / 4]?.getD ' ') = some (a / 4) :=
      decodeChar_std (by omega)
    have d2 : decodeBase64Char (base64Alphabet[a % 4 * 16]?.getD ' ') = some (a % 4 * 16) :=
      decodeChar_std (by omega)
    simp [encodeChunks, decodeBase64Chunks, h1, h2, d1, d2]
    omega
  | [a, b], h => by
    have ha : a < 256 := h a (by simp)
    have hb : b < 256 := h b (by simp)
    have h1 := shiftRight2 a
    have h2 := idx2_eq a b hb
    have h3 := idx3s_eq b
    have d1 : decodeBase64Char (base64Alphabet[a / 4]?.getD ' ') = some (a / 4) :=
      decodeChar_std (by omega)
    have d2 : decodeBase64Char (base64Alphabet[a % 4 * 16 + b / 16]?.getD ' ')
        = some (a % 4 * 16 + b / 16) := decodeChar_std (by omega)
    have d3 : decodeBase64Char (base64Alphabet[b % 16 * 4]?.getD ' ') = some (b % 16 * 4) :=
      decodeChar_std (by omega)
    simp [encodeChunks, decodeBase64Chunks, h1, h2, h3, d1, d2, d3]
    omega
  | a :: b :: c :: rest, h => by
    have ha : a < 256 := h a (by simp)
    have hb : b < 256 := h b (by simp)
    have hc : c < 256 := h c (by simp)
    have ih := decode_encodeChunks rest (fun x hx => h x (by simp [hx]))
    have h1 := shiftRight2 a
    have h2 := idx2_eq a b hb
    have h3 := idx3_eq b c hc
    have h4 := and_63 c
    have d1 : decodeBase64Char (base64Alphabet[a / 4]?.getD ' ') = some (a / 4) :=
      decodeChar_std (by omega)
    have d2 : decodeBase64Char (base64Alphabet[a % 4 * 16 + b / 16]?.getD ' ')
        = some (a % 4 * 16 + b / 16) := decodeChar_std (by omega)
    have d3 : decodeBase64Char (base64Alphabet[b % 16 * 4 + c / 64]?.getD ' ')
        = some (b % 16 * 4 + c / 64) := decodeChar_std (by omega)
    have d4 : decodeBase64Char (base64Alphabet[c % 64]?.getD ' ') = some (c % 64) :=
      decodeChar_std (by omega)
    simp [encodeChunks, decodeBase64Chunks, h1, h2, h3, h4, d1, d2, d3, d4, ih]
    omega

/-! ### The url-safe dictionary substitutes two symbols -/

/-- Substitution the url-safe alphabet applies to the standard alphabet. -/
def plusSlashSubst (c : Char) : Char :=
  if c = '+' then '-' else if c = '/' then '_' else c

theorem base64UrlSafeAlphabet_length : base64UrlSafeAlphabet.length = 64 := by decide

/-- Position by position, the url-safe dictionary is the standard one with
`+` and `/` replaced. -/
theorem urlAlphabet_getD (i : Nat) :
    base64UrlSafeAlphabet[i]?.getD ' ' = plusSlashSubst (base64Alphabet[i]?.getD ' ') := by
  rw [← List.getD_eq_getElem?_getD, ← List.getD_eq_getElem?_getD]
  by_cases h : i < 64
  · exact (show ∀ j : Fin 64, base64UrlSafeAlphabet.getD (j : Nat) ' '
      = plusSlashSubst (base64Alphabet.getD (j : Nat) ' ') by decide) ⟨i, h⟩
  · rw [List.getD_eq_default _ _ (by rw [base64UrlSafeAlphabet_length]; omega),
      List.getD_eq_default _ _ (by rw [base64Alphabet_length]; omega)]
    decide

theorem plusSlashSubst_pad : plusSlashSubst '=' = '=' := by decide

theorem plusSlashSubst_ne_plus (c : Char) : plusSlashSubst c ≠ '+' := by
  unfold plusSlashSubst
  split_ifs with h1 h2
  · decide
  · decide
  · exact h1

theorem plusSlashSubst_ne_slash (c : Char) : plusSlashSubst c ≠ '/' := by
  unfold plusSlashSubst
  split_ifs with h1 h2
  · decide
  · decide
  · exact h2

/-- The url-safe encoding is the standard encoding mapped through the
two-symbol substitution. -/
theorem encodeChunks_urlSafe (p : Bool) : ∀ bytes : List Nat,
    encodeChunks base64UrlSafeAlphabet p bytes
      = (encodeChunks base64Alphabet p bytes).map plusSlashSubst
  | [] => rfl
  | [a] => by
    cases p <;> simp [encodeChunks, urlAlphabet_getD, plusSlashSubst_pad]
  | [a, b] => by
    cases p <;> simp [encodeChunks, urlAlphabet_getD, plusSlashSubst_pad]
  | a :: b :: c :: rest => by
    have ih := encodeChunks_urlSafe p rest
    simp [encodeChunks, urlAlphabet_getD, ih]

/-! ### Output length of the encoder -/

theorem encodeChunks_length (dict : List Char) (p : Bool) : ∀ bytes : List Nat,
    (encodeChunks dict p bytes).length =
      bytes.length / 3 * 4 +
        (if bytes.length % 3 = 0 then 0 else if p then 4 else bytes.length % 3 + 1)
  | [] => by simp [encodeChunks]
  | [a] => by cases p <;> simp [encodeChunks]
  | [a, b] => by cases p <;> simp [encodeChunks]
  | a :: b :: c :: rest => by
    have ih := encodeChunks_length dict p rest
    simp only [encodeChunks, List.length_cons, ih]
    have h3 : (rest.length + 1 + 1 + 1) % 3 = rest.length % 3 := by omega
    have h4 : (rest.length + 1 + 1 + 1) / 3 = rest.length / 3 + 1 := by omega
    rw [h3, h4]
    generalize (if rest.length % 3 = 0 then 0 else if p then 4 else rest.length % 3 + 1) = k
    omega

/-! ### Claim theorems -/

/-- C1: with the store holding `"img.png" -> {"image/png": "X"}`, the namer
returns `"img.png"` again for payload `"X"` (content reuse), `"img-2.png"` for
a different payload `"Y"`, and, once both names are stored, `"img-3.png"` for
a third distinct payload. -/
theorem C1_buildAttachment_reuse_and_suffix :
    (buildAttachment "X" ⟨⟨some ⟨some [("img.png", [("image/png", "X")])]⟩⟩⟩ "img" ".png"
        (some [("img.png", [("image/png", "X")])])).map AttachmentResult.filename
      = some "img.png" ∧
    (buildAttachment "Y" ⟨⟨some ⟨some [("img.png", [("image/png", "X")])]⟩⟩⟩ "img" ".png"
        (some [("img.png", [("image/png", "X")])])).map AttachmentResult.filename
      = some "img-2.png" ∧
    (buildAttachment "Z" ⟨⟨some ⟨some [("img.png", [("image/png", "X")]),
          ("img-2.png", [("image/png", "Y")])]⟩⟩⟩ "img" ".png"
        (some [("img.png", [("image/png", "X")]), ("img-2.png", [("image/png", "Y")])])).map
        AttachmentResult.filename
      = some "img-3.png" := by
  refine ⟨?_, ?_, ?_⟩ <;> decide

/-- C2: encoding any byte sequence with the defaults (`padded`, standard
alphabet) and decoding with the companion standard decoder returns the bytes. -/
theorem C2_encode_decode_roundtrip (b : List Nat) (hb : ∀ x ∈ b, x < 256) :
    decodeBase64Standard (encodeBase64 b true false) = some b := by
  show decodeBase64Chunks ((encodeChunks base64Alphabet true b).filter (fun c => c ≠ '=')) = some b
  rw [filter_encode_padded]
  exact decode_encodeChunks b hb

theorem C2_encode_decode_roundtrip_witness :
    (∀ x ∈ [0, 100, 255], x < 256) ∧
    decodeBase64Standard (encodeBase64 [0, 100, 255] true false) = some [0, 100, 255] :=
  ⟨by decide, C2_encode_decode_roundtrip [0, 100, 255] (by decide)⟩

/-- C5: when every stored record has at least one MIME entry, the collision
loop of the namer terminates and `buildAttachment` returns a result. -/
theorem C5_collision_loop_terminates (store : AttachmentStore) (b64 fn ft : String)
    (hrec : ∀ p ∈ store, p.2 ≠ []) :
    ∃ r, buildAttachment b64 ⟨⟨some ⟨some store⟩⟩⟩ fn ft (some store) = some r := by
  obtain ⟨s, hs⟩ := collisionLoop_isSome store b64 fn ft hrec (store.length + 2) 2 (fn ++ ft)
    (exists_free_candidate store fn ft)
  refine ⟨⟨⟨some ⟨some (setKey store s [("image/png", b64)])⟩⟩, s⟩, ?_⟩
  simp [buildAttachment, hs]

theorem C5_collision_loop_terminates_witness :
    (∀ p ∈ [("img.png", [("image/png", "X")])], p.2 ≠ ([] : AttachmentRecord)) ∧
    ∃ r, buildAttachment "Y" ⟨⟨some ⟨some [("img.png", [("image/png", "X")])]⟩⟩⟩ "img" ".png"
      (some [("img.png", [("image/png", "X")])]) = some r :=
  ⟨by decide, C5_collision_loop_terminates [("img.png", [("image/png", "X")])] "Y" "img" ".png"
    (by decide)⟩

/-- C6 counterexample: on a record with zero MIME entries, the iteration does
not leave the state unchanged as claimed: the `for` update still runs and
advances `appendValue` from 2 to 3 (only the candidate name stays). -/
theorem C6_counterexample :
    loopStep [("img.png", [])] "X" "img" ".png" 2 "img.png" = Sum.inr (3, "img.png") ∧
    ((3 : Nat), "img.png") ≠ ((2 : Nat), "img.png") := by
  refine ⟨?_, ?_⟩ <;> decide

/-- C6 amended: an iteration that meets a record with zero MIME entries leaves
the candidate name unchanged but still increments `appendValue` by one. -/
theorem C6_amended_zero_entry_step (store : AttachmentStore) (b64 fn ft temp : String)
    (appendValue : Nat) (h : store.lookup temp = some []) :
    loopStep store b64 fn ft appendValue temp = Sum.inr (appendValue + 1, temp) := by
  simp [loopStep, h]

theorem C6_amended_zero_entry_step_witness :
    (([("img.png", [])] : AttachmentStore).lookup "img.png" = some []) ∧
    loopStep [("img.png", [])] "X" "img" ".png" 2 "img.png" = Sum.inr (2 + 1, "img.png") :=
  ⟨by decide, C6_amended_zero_entry_step [("img.png", [])] "X" "img" ".png" "img.png" 2
    (by decide)⟩

/-- C10: the content-identity check ignores the MIME type: when the record
under the first candidate name has first entry `(mime, b64)` for any `mime`,
the candidate name is reused. -/
theorem C10_reuse_ignores_mime (store : AttachmentStore) (b64 fn ft mime : String)
    (rest : AttachmentRecord) (h : store.lookup (fn ++ ft) = some ((mime, b64) :: rest)) :
    buildAttachment b64 ⟨⟨some ⟨some store⟩⟩⟩ fn ft (some store)
      = some ⟨⟨some ⟨some (setKey store (fn ++ ft) [("image/png", b64)])⟩⟩, fn ++ ft⟩ := by
  have hloop : collisionLoop store b64 fn ft (store.length + 2) 2 (fn ++ ft)
      = some (fn ++ ft) := by
    have h2 : store.length + 2 = store.length + 1 + 1 := rfl
    rw [h2, collisionLoop]
    rw [show loopStep store b64 fn ft 2 (fn ++ ft) = Sum.inl (fn ++ ft) from by
      simp [loopStep, h]]
  simp [buildAttachment, hloop]

theorem C10_reuse_ignores_mime_witness :
    (([("img.png", [("text/plain", "X")])] : AttachmentStore).lookup ("img" ++ ".png")
      = some (("text/plain", "X") :: [])) ∧
    buildAttachment "X" ⟨⟨some ⟨some [("img.png", [("text/plain", "X")])]⟩⟩⟩ "img" ".png"
        (some [("img.png", [("text/plain", "X")])])
      = some ⟨⟨some ⟨some (setKey [("img.png", [("text/plain", "X")])] ("img" ++ ".png")
          [("image/png", "X")])⟩⟩, "img" ++ ".png"⟩ :=
  ⟨by decide, C10_reuse_ignores_mime [("img.png", [("text/plain", "X")])] "X" "img" ".png"
    "text/plain" [] (by decide)⟩

/-- C4 counterexample: reusing an existing name replaces that name's whole
record with the single new MIME entry, so a pre-existing extra entry
(`"text/plain"` here) is removed, contrary to the claim that records under a
reused name are never modified. -/
theorem C4_counterexample :
    buildAttachment "X"
        ⟨⟨some ⟨some [("img.png", [("image/png", "X"), ("text/plain", "hello")])]⟩⟩⟩
        "img" ".png" (some [("img.png", [("image/png", "X"), ("text/plain", "hello")])])
      = some ⟨⟨some ⟨some [("img.png", [("image/png", "X")])]⟩⟩, "img.png"⟩ ∧
    ([("img.png", [("image/png", "X"), ("text/plain", "hello")])] : AttachmentStore).lookup
        "img.png" = some [("image/png", "X"), ("text/plain", "hello")] ∧
    ([("img.png", [("image/png", "X")])] : AttachmentStore).lookup "img.png"
      = some [("image/png", "X")] ∧
    ([("image/png", "X")] : AttachmentRecord)
      ≠ [("image/png", "X"), ("text/plain", "hello")] := by
  refine ⟨?_, ?_, ?_, ?_⟩ <;> decide

/-- C4 amended: `buildAttachment` writes exactly the one-entry record
`{image/png: b64}` under the settled name and leaves the record of every other
key unchanged; when the settled name reuses an existing key, that key's
previous record (extra MIME entries included) is replaced wholesale by the new
one-entry record. -/
theorem C4_amended_frame (store : AttachmentStore) (b64 fn ft : String) (r : AttachmentResult)
    (h : buildAttachment b64 ⟨⟨some ⟨some store⟩⟩⟩ fn ft (some store) = some r) :
    r.metadata = ⟨some ⟨some (setKey store r.filename [("image/png", b64)])⟩⟩ ∧
    (setKey store r.filename [("image/png", b64)]).lookup r.filename
      = some [("image/png", b64)] ∧
    ∀ k, k ≠ r.filename →
      (setKey store r.filename [("image/png", b64)]).lookup k = store.lookup k := by
  refine ⟨?_, lookup_setKey_self _ _ _, fun k hk => lookup_setKey_ne _ _ _ _ hk⟩
  rcases hc : collisionLoop store b64 fn ft (store.length + 2) 2 (fn ++ ft) with _ | s
  · rw [show buildAttachment b64 ⟨⟨some ⟨some store⟩⟩⟩ fn ft (some store) = none from by
      simp [buildAttachment, hc]] at h
    cases h
  · rw [show buildAttachment b64 ⟨⟨some ⟨some store⟩⟩⟩ fn ft (some store)
        = some ⟨⟨some ⟨some (setKey store s [("image/png", b64)])⟩⟩, s⟩ from by
      simp [buildAttachment, hc]] at h
    cases h
    rfl

theorem C4_amended_frame_witness :
    (⟨⟨some ⟨some [("img.png", [("image/png", "X")])]⟩⟩, "img.png"⟩ :
        AttachmentResult).metadata
      = ⟨some ⟨some (setKey [("img.png", [("image/png", "X"), ("text/plain", "hello")])]
          "img.png" [("image/png", "X")])⟩⟩ ∧
    (setKey [("img.png", [("image/png", "X"), ("text/plain", "hello")])] "img.png"
        [("image/png", "X")]).lookup "img.png" = some [("image/png", "X")] ∧
    ∀ k, k ≠ "img.png" →
      (setKey [("img.png", [("image/png", "X"), ("text/plain", "hello")])] "img.png"
        [("image/png", "X")]).lookup k
      = ([("img.png", [("image/png", "X"), ("text/plain", "hello")])] :
          AttachmentStore).lookup k :=
  C4_amended_frame [("img.png", [("image/png", "X"), ("text/plain", "hello")])] "X" "img" ".png"
    ⟨⟨some ⟨some [("img.png", [("image/png", "X")])]⟩⟩, "img.png"⟩ (by decide)

/-- C7: whenever the namer returns (called, as its only caller does, on the
cell's own attachments object), the settled name is either no key of the input
store or an existing key some of whose stored payloads equals the new base64
payload byte for byte. -/
theorem C7_settled_name_invariant (cell : NotebookCell) (b64 fn ft : String)
    (r : AttachmentResult)
    (h : buildAttachment b64 cell fn ft (cell.metadata.custom.bind CustomMetadata.attachments)
      = some r) :
    ((cell.metadata.custom.bind CustomMetadata.attachments).getD []).lookup r.filename
        = none ∨
    ∃ rec, ((cell.metadata.custom.bind CustomMetadata.attachments).getD []).lookup r.filename
        = some rec ∧ ∃ mime, (mime, b64) ∈ rec := by
  obtain ⟨⟨customOpt⟩⟩ := cell
  cases customOpt with
  | none => exact Or.inl rfl
  | some customObj =>
    obtain ⟨attOpt⟩ := customObj
    cases attOpt with
    | none => exact Or.inl rfl
    | some atts =>
      rcases hc : collisionLoop atts b64 fn ft (atts.length + 2) 2 (fn ++ ft) with _ | s
      · rw [show buildAttachment b64 ⟨⟨some ⟨some atts⟩⟩⟩ fn ft
            ((⟨⟨some ⟨some atts⟩⟩⟩ : NotebookCell).metadata.custom.bind
              CustomMetadata.attachments) = none from by
          simp [buildAttachment, hc]] at h
        cases h
      · rw [show buildAttachment b64 ⟨⟨some ⟨some atts⟩⟩⟩ fn ft
            ((⟨⟨some ⟨some atts⟩⟩⟩ : NotebookCell).metadata.custom.bind
              CustomMetadata.attachments)
            = some ⟨⟨some ⟨some (setKey atts s [("image/png", b64)])⟩⟩, s⟩ from by
          simp [buildAttachment, hc]] at h
        cases h
        rcases collisionLoop_post atts b64 fn ft _ _ _ _ hc with hnone | ⟨mime, rest, hsome⟩
        · exact Or.inl hnone
        · exact Or.inr ⟨(mime, b64) :: rest, hsome, mime, List.mem_cons_self _ _⟩

theorem C7_settled_name_invariant_witness :
    (((⟨⟨some ⟨some [("img.png", [("image/png", "X")])]⟩⟩⟩ :
        NotebookCell).metadata.custom.bind CustomMetadata.attachments).getD []).lookup
        "img-2.png" = none ∨
    ∃ rec, (((⟨⟨some ⟨some [("img.png", [("image/png", "X")])]⟩⟩⟩ :
        NotebookCell).metadata.custom.bind CustomMetadata.attachments).getD []).lookup
        "img-2.png" = some rec ∧ ∃ mime, (mime, "Y") ∈ rec :=
  C7_settled_name_invariant ⟨⟨some ⟨some [("img.png", [("image/png", "X")])]⟩⟩⟩ "Y" "img" ".png"
    ⟨⟨some ⟨some [("img.png", [("image/png", "X")]), ("img-2.png", [("image/png", "Y")])]⟩⟩,
      "img-2.png"⟩ (by decide)

/-- C8: the encoder has no error case: the empty input encodes to the empty
string, and the output length is `ceil(n/3)*4` (written `(n+2)/3*4` over the
naturals) when padded, and `n/3*4` plus `0` or `n%3+1` when unpadded. -/
theorem C8_encodeBase64_length :
    encodeBase64 [] true false = "" ∧
    ∀ (b : List Nat) (urlSafe : Bool),
      (encodeBase64 b true urlSafe).length = (b.length + 2) / 3 * 4 ∧
      (encodeBase64 b false urlSafe).length =
        b.length / 3 * 4 + (if b.length % 3 = 0 then 0 else b.length % 3 + 1) := by
  refine ⟨rfl, fun b u => ⟨?_, ?_⟩⟩
  · have h : (encodeBase64 b true u).length
        = (encodeChunks (if u then base64UrlSafeAlphabet else base64Alphabet) true b).length := by
      cases u <;> rfl
    rw [h, encodeChunks_length]
    by_cases h0 : b.length % 3 = 0 <;> simp [h0] <;> omega
  · have h : (encodeBase64 b false u).length
        = (encodeChunks (if u then base64UrlSafeAlphabet else base64Alphabet) false b).length := by
      cases u <;> rfl
    rw [h, encodeChunks_length]
    simp

/-- C9: for every input and padding choice, the url-safe output contains no
`+` and no `/`, and position by position equals the standard output with `+`
replaced by `-` and `/` replaced by `_` (all other positions identical). -/
theorem C9_urlSafe_substitution (b : List Nat) (padded : Bool) :
    (encodeBase64 b padded true).length = (encodeBase64 b padded false).length ∧
    (∀ i : Nat,
      (encodeBase64 b padded true).data.getD i ' ' =
        (if (encodeBase64 b padded false).data.getD i ' ' = '+' then '-'
         else if (encodeBase64 b padded false).data.getD i ' ' = '/' then '_'
         else (encodeBase64 b padded false).data.getD i ' ')) ∧
    '+' ∉ (encodeBase64 b padded true).data ∧
    '/' ∉ (encodeBase64 b padded true).data := by
  have hmap : (encodeBase64 b padded true).data
      = (encodeBase64 b padded false).data.map plusSlashSubst := encodeChunks_urlSafe padded b
  refine ⟨?_, ?_, ?_, ?_⟩
  · show (encodeBase64 b padded true).data.length = (encodeBase64 b padded false).data.length
    rw [hmap, List.length_map]
  · intro i
    rw [hmap]
    by_cases h : i < (encodeBase64 b padded false).data.length
    · rw [List.getD_eq_getElem _ _ (by simpa using h), List.getD_eq_getElem _ _ h,
        List.getElem_map]
      rfl
    · rw [List.getD_eq_default _ _ (by simpa using (Nat.le_of_not_lt h)),
        List.getD_eq_default _ _ (Nat.le_of_not_lt h)]
      decide
  · rw [hmap]
    intro hm
    obtain ⟨x, _, hx⟩ := List.mem_map.mp hm
    exact plusSlashSubst_ne_plus x hx
  · rw [hmap]
    intro hm
    obtain ⟨x, _, hx⟩ := List.mem_map.mp hm
    exact plusSlashSubst_ne_slash x hx

/-! ### Claim C3: filenames without a dot -/

/-- With no `.` in the suggested filename, `lastIndexOf` yields `-1`. -/
theorem lastIndexOf_eq_neg_one (s : String) (hne : '.' ∉ s.data) :
    lastIndexOf s '.' = -1 := by
  unfold lastIndexOf
  have hfi : s.data.reverse.findIdx? (fun x => x = '.') = none := by
    rw [List.findIdx?_eq_none_iff]
    intro x hx
    simp only [decide_eq_false_iff_not]
    intro hEq
    rw [hEq] at hx
    exact hne ((List.mem_reverse).mp hx)
  rw [hfi]

/-- `s.slice(0, -1)` of a one-character string is empty. -/
theorem jsSlice_singleton_empty (s : String) (c0 : Char) (hc : s.data = [c0]) :
    jsSlice s 0 (-1) = "" := by
  unfold jsSlice
  rw [hc]
  norm_num

/-- `s.slice(0, -1)` of a string of two or more characters is nonempty. -/
theorem jsSlice_init_ne_empty (s : String) (h : 2 ≤ s.data.length) :
    jsSlice s 0 (-1) ≠ "" := by
  unfold jsSlice
  intro heq
  have hd := congrArg String.data heq
  norm_num at hd
  have hL : s.length = s.data.length := rfl
  rcases hd with hd | hd
  · omega
  · have := congrArg List.length hd
    simp at this
    omega

/-- `s.slice(-1)` of a nonempty string is nonempty. -/
theorem jsSlice_last_ne_empty (s : String) (h : 1 ≤ s.data.length) :
    jsSlice s (-1) (s.data.length : Int) ≠ "" := by
  unfold jsSlice
  intro heq
  have hd := congrArg String.data heq
  have h0 : ¬((s.data.length : Int) < 0) := by omega
  norm_num [h0] at hd
  have hL : s.length = s.data.length := rfl
  omega

/-- C3 counterexample: the transfer file named `"abc"` (no `.`), with resolved
bytes and an owning cell, does not abort: the operation proceeds, treating the
final character `c` as the extension and producing an edit and snippet. -/
theorem C3_counterexample :
    ('.' ∉ "abc".data) ∧
    buildImageMarkdown (some ⟨some ⟨some [0], "abc"⟩⟩) (some ⟨⟨none⟩⟩)
      = some ("![abc](attachment:abc)", ⟨some ⟨some [("abc", [("image/png", "AA==")])]⟩⟩) := by
  refine ⟨?_, ?_⟩ <;> decide

/-- C3 amended: a payload whose suggested filename lacks a `.` aborts the
operation only when the filename has exactly one character (`slice(0, -1)`
then yields the empty base name); with two or more characters the name is
split before its last character, which becomes the extension, and the
operation proceeds (shown here producing an edit whenever bytes and a cell
are available and the cell has no custom metadata yet). -/
theorem C3_amended_dot_free_filename :
    (∀ (f : TransferFile) (cellOpt : Option NotebookCell),
      '.' ∉ f.name.data → f.name.data.length = 1 →
      buildImageMarkdown (some ⟨some f⟩) cellOpt = none) ∧
    (∀ (f : TransferFile) (bytes : List Nat) (cell : NotebookCell),
      f.data = some bytes → '.' ∉ f.name.data → 2 ≤ f.name.data.length →
      cell.metadata.custom = none →
      ∃ r, buildImageMarkdown (some ⟨some f⟩) (some cell) = some r) := by
  constructor
  · intro f cellOpt hdot hlen
    obtain ⟨c0, hc⟩ := List.length_eq_one.mp hlen
    cases hfd : f.data with
    | none => simp [buildImageMarkdown, hfd]
    | some bytes =>
      have hname : ¬(f.name = "") := by
        intro he
        rw [he] at hc
        simp at hc
      have hli : lastIndexOf f.name '.' = -1 := lastIndexOf_eq_neg_one _ hdot
      have hslice : jsSlice f.name 0 (-1) = "" := jsSlice_singleton_empty _ c0 hc
      simp [buildImageMarkdown, hfd, hname, hli, hslice]
  · intro f bytes cell hfd hdot hlen hcustom
    have hname : ¬(f.name = "") := by
      intro he
      rw [he] at hlen
      simp at hlen
    have hli : lastIndexOf f.name '.' = -1 := lastIndexOf_eq_neg_one _ hdot
    have hfn : ¬(jsSlice f.name 0 (-1) = "") := jsSlice_init_ne_empty _ hlen
    have hft : ¬(jsSlice f.name (-1) (f.name.data.length : Int) = "") :=
      jsSlice_last_ne_empty _ (by omega)
    refine ⟨("![" ++ f.name ++ "](attachment:" ++
      (jsSlice f.name 0 (-1) ++ jsSlice f.name (-1) (f.name.data.length : Int)) ++ ")",
      ⟨some ⟨some [(jsSlice f.name 0 (-1) ++ jsSlice f.name (-1) (f.name.data.length : Int),
        [("image/png", encodeBase64 bytes true false)])]⟩⟩), ?_⟩
    simp [buildImageMarkdown, hfd, hname, hli, hfn, hft, buildAttachment, hcustom]
    exact hft

theorem C3_amended_dot_free_filename_witness :
    buildImageMarkdown (some ⟨some ⟨some [0], "a"⟩⟩) none = none ∧
    ∃ r, buildImageMarkdown (some ⟨some ⟨some [0], "ab"⟩⟩) (some ⟨⟨none⟩⟩) = some r :=
  ⟨C3_amended_dot_free_filename.1 ⟨some [0], "a"⟩ none (by decide) (by decide),
   C3_amended_dot_free_filename.2 ⟨some [0], "ab"⟩ [0] ⟨⟨none⟩⟩ rfl (by decide) (by decide) rfl⟩
